import Mathlib

/-
Verification of the geometric frame algebra and best-fit estimators of the
compas repository (src/compas/geometry/primitives/frame.py and
src/compas/geometry/bestfit/bestfit_numpy.py).

Real coordinates are embedded as Lean real numbers; Python float arithmetic
is modelled exactly.  Helper modules of the repository that are not part of
the provided sources (compas.geometry.basic vectors, compas.geometry.xforms
transformations, the transformations matrix helpers, pca and the local/global
coordinate helpers) are modelled from the specification; each such definition
carries a doc comment saying so.  Outputs of the external numerical routines
(scipy svd, scipy leastsq, numpy lstsq) enter as parameters, constrained in
the theorems by the mathematical contract of the routine.
-/

namespace Compas

/-- A 3d coordinate triple, as used throughout compas for points and vectors
(compas.geometry.primitives Point and Vector both wrap three floats). -/
@[ext]
structure Vec3 where
  x : ℝ
  y : ℝ
  z : ℝ

namespace Vec3

def add (a b : Vec3) : Vec3 := ⟨a.x + b.x, a.y + b.y, a.z + b.z⟩

def sub (a b : Vec3) : Vec3 := ⟨a.x - b.x, a.y - b.y, a.z - b.z⟩

def neg (a : Vec3) : Vec3 := ⟨-a.x, -a.y, -a.z⟩

def smul (t : ℝ) (a : Vec3) : Vec3 := ⟨t * a.x, t * a.y, t * a.z⟩

instance : Zero Vec3 := ⟨⟨0, 0, 0⟩⟩

instance : Add Vec3 := ⟨add⟩

instance : Sub Vec3 := ⟨sub⟩

instance : Neg Vec3 := ⟨neg⟩

instance : SMul ℝ Vec3 := ⟨smul⟩

instance : AddCommGroup Vec3 where
  add_assoc a b c := by ext <;> exact add_assoc _ _ _
  zero_add a := by ext <;> exact zero_add _
  add_zero a := by ext <;> exact add_zero _
  add_comm a b := by ext <;> exact add_comm _ _
  neg_add_cancel a := by ext <;> exact neg_add_cancel _
  sub_eq_add_neg a b := by ext <;> exact sub_eq_add_neg _ _
  nsmul := nsmulRec
  zsmul := zsmulRec

instance : Module ℝ Vec3 where
  one_smul a := by ext <;> exact one_mul _
  mul_smul s t a := by ext <;> exact mul_assoc _ _ _
  smul_zero t := by ext <;> exact mul_zero _
  smul_add t a b := by ext <;> exact mul_add _ _ _
  add_smul s t a := by ext <;> exact add_mul _ _ _
  zero_smul a := by ext <;> exact zero_mul _

end Vec3

/-- Dot product of coordinate triples (compas.geometry.basic dot_vectors;
modelled from the spec section 4.1, not part of the provided sources). -/
def dot (a b : Vec3) : ℝ := a.x * b.x + a.y * b.y + a.z * b.z

/-- Cross product of coordinate triples (compas.geometry.basic cross_vectors;
modelled from the spec section 4.1, not part of the provided sources). -/
def cross (a b : Vec3) : Vec3 :=
  ⟨a.y * b.z - a.z * b.y, a.z * b.x - a.x * b.z, a.x * b.y - a.y * b.x⟩

/-- Modelled from the spec: Vector.length of compas.geometry.primitives
(not part of the provided sources), the euclidean norm. -/
noncomputable def vlength (v : Vec3) : ℝ := Real.sqrt (dot v v)

/-- Modelled from the spec: Vector.unitize of compas.geometry.primitives
(not part of the provided sources) divides every component by the length;
its failure on a zero vector is tracked by the callers below. -/
noncomputable def unitize (v : Vec3) : Vec3 := (vlength v)⁻¹ • v

/-- A 3x3 real matrix, entry mij sitting in row i, column j.  Used for the
rotation blocks of the 4x4 homogeneous matrices of compas.geometry.xforms
and for the right-singular-vector factor returned by scipy's svd. -/
@[ext]
structure Mat3 where
  m00 : ℝ
  m01 : ℝ
  m02 : ℝ
  m10 : ℝ
  m11 : ℝ
  m12 : ℝ
  m20 : ℝ
  m21 : ℝ
  m22 : ℝ

namespace Mat3

def row0 (M : Mat3) : Vec3 := ⟨M.m00, M.m01, M.m02⟩

def row1 (M : Mat3) : Vec3 := ⟨M.m10, M.m11, M.m12⟩

def row2 (M : Mat3) : Vec3 := ⟨M.m20, M.m21, M.m22⟩

def col0 (M : Mat3) : Vec3 := ⟨M.m00, M.m10, M.m20⟩

def col1 (M : Mat3) : Vec3 := ⟨M.m01, M.m11, M.m21⟩

def col2 (M : Mat3) : Vec3 := ⟨M.m02, M.m12, M.m22⟩

/-- The matrix whose columns are the three given vectors. -/
def ofCols (a b c : Vec3) : Mat3 :=
  ⟨a.x, b.x, c.x, a.y, b.y, c.y, a.z, b.z, c.z⟩

def mulVec (M : Mat3) (v : Vec3) : Vec3 :=
  ⟨M.m00 * v.x + M.m01 * v.y + M.m02 * v.z,
   M.m10 * v.x + M.m11 * v.y + M.m12 * v.z,
   M.m20 * v.x + M.m21 * v.y + M.m22 * v.z⟩

def mul (M N : Mat3) : Mat3 :=
  ⟨M.m00 * N.m00 + M.m01 * N.m10 + M.m02 * N.m20,
   M.m00 * N.m01 + M.m01 * N.m11 + M.m02 * N.m21,
   M.m00 * N.m02 + M.m01 * N.m12 + M.m02 * N.m22,
   M.m10 * N.m00 + M.m11 * N.m10 + M.m12 * N.m20,
   M.m10 * N.m01 + M.m11 * N.m11 + M.m12 * N.m21,
   M.m10 * N.m02 + M.m11 * N.m12 + M.m12 * N.m22,
   M.m20 * N.m00 + M.m21 * N.m10 + M.m22 * N.m20,
   M.m20 * N.m01 + M.m21 * N.m11 + M.m22 * N.m21,
   M.m20 * N.m02 + M.m21 * N.m12 + M.m22 * N.m22⟩

def transpose (M : Mat3) : Mat3 :=
  ⟨M.m00, M.m10, M.m20, M.m01, M.m11, M.m21, M.m02, M.m12, M.m22⟩

instance : One Mat3 := ⟨⟨1, 0, 0, 0, 1, 0, 0, 0, 1⟩⟩

def det (M : Mat3) : ℝ :=
  M.m00 * (M.m11 * M.m22 - M.m12 * M.m21)
  - M.m01 * (M.m10 * M.m22 - M.m12 * M.m20)
  + M.m02 * (M.m10 * M.m21 - M.m11 * M.m20)

/-- Inverse through the adjugate, the closed form a hand-written 3x3/4x4
matrix inversion computes (compas.geometry.transformations inverse;
modelled from the spec, which only demands the matrix inverse). -/
noncomputable def inv (M : Mat3) : Mat3 :=
  ⟨(M.m11 * M.m22 - M.m12 * M.m21) / M.det,
   (M.m02 * M.m21 - M.m01 * M.m22) / M.det,
   (M.m01 * M.m12 - M.m02 * M.m11) / M.det,
   (M.m12 * M.m20 - M.m10 * M.m22) / M.det,
   (M.m00 * M.m22 - M.m02 * M.m20) / M.det,
   (M.m02 * M.m10 - M.m00 * M.m12) / M.det,
   (M.m10 * M.m21 - M.m11 * M.m20) / M.det,
   (M.m01 * M.m20 - M.m00 * M.m21) / M.det,
   (M.m00 * M.m11 - M.m01 * M.m10) / M.det⟩

end Mat3

/-- The Frame data of frame.py: a base point and the two stored axes.
The z-axis is always recomputed (property Frame.normal), never stored. -/
structure Frame where
  point : Vec3
  xaxis : Vec3
  yaxis : Vec3

/-- The point setter of frame.py (line 463): stores the coordinates verbatim. -/
def setPoint (f : Frame) (p : Vec3) : Frame := { f with point := p }

/-- The xaxis setter of frame.py (line 471): unitizes the input and stores it;
the stored yaxis is left untouched. -/
noncomputable def setXaxis (f : Frame) (v : Vec3) : Frame :=
  { f with xaxis := unitize v }

/-- The yaxis setter of frame.py (line 481): unitizes the input, forms
zaxis = cross(xaxis, yaxis), unitizes it, and stores cross(zaxis, xaxis). -/
noncomputable def setYaxis (f : Frame) (v : Vec3) : Frame :=
  { f with yaxis := cross (unitize (cross f.xaxis (unitize v))) f.xaxis }

/-- Frame.__init__ (frame.py line 61): runs the point, xaxis and yaxis
setters in this order on a fresh object. -/
noncomputable def mkFrame (p x y : Vec3) : Frame :=
  setYaxis (setXaxis (setPoint ⟨0, 0, 0⟩ p) x) y

/-- Frame.normal / Frame.zaxis (frame.py line 520): cross of the stored axes,
recomputed on every access. -/
def zaxis (f : Frame) : Vec3 := cross f.xaxis f.yaxis

def tripleProd (a b c : Vec3) : ℝ := dot a (cross b c)

/-- The orthonormality invariant of the spec data model: both stored axes are
unit, they are perpendicular, and together with the derived z-axis they form
a right-handed triad (positive determinant of the basis). -/
def FrameInv (f : Frame) : Prop :=
  dot f.xaxis f.xaxis = 1 ∧ dot f.yaxis f.yaxis = 1 ∧ dot f.xaxis f.yaxis = 0 ∧
  tripleProd f.xaxis f.yaxis (zaxis f) = 1

/-- A 4x4 homogeneous rigid-motion matrix of compas.geometry.xforms, split as
rotation block plus translation column (modelled from the spec sections 2
and 4.4: the xforms module is not part of the provided sources). -/
structure Xform where
  R : Mat3
  t : Vec3

namespace Xform

/-- Homogeneous matrix product (modelled from the spec: transformation
composition is matrix multiplication). -/
def compose (T S : Xform) : Xform := ⟨T.R.mul S.R, T.R.mulVec S.t + T.t⟩

/-- Application of the homogeneous matrix to a point (Point.transform;
modelled from the spec: rotation then translation). -/
def apply (T : Xform) (p : Vec3) : Vec3 := T.R.mulVec p + T.t

/-- The general 4x4 matrix inverse of compas.geometry.transformations
(modelled from the spec), written for the affine block structure:
the inverse of [[R, t], [0, 1]] is [[R^-1, -R^-1 t], [0, 1]]. -/
noncomputable def inverse (T : Xform) : Xform := ⟨T.R.inv, -(T.R.inv.mulVec T.t)⟩

/-- Basis-vector extraction from a matrix (basis_vectors_from_matrix,
modelled from the spec section 4.3: first and second column). -/
def basisX (T : Xform) : Vec3 := T.R.col0

def basisY (T : Xform) : Vec3 := T.R.col1

end Xform

/-- matrix_from_frame (modelled from the spec section 4.4): rotation columns
are the frame's basis vectors together with the derived z-axis, translation
is the origin. -/
def matrixFromFrame (f : Frame) : Xform :=
  ⟨Mat3.ofCols f.xaxis f.yaxis (zaxis f), f.point⟩

/-- matrix_from_basis_vectors (modelled from the spec section 4.3): both
inputs are unitized, the z-axis is their cross product, the y-axis is
re-derived as zaxis x xaxis; the translation column is zero. -/
noncomputable def matrixFromBasis (x y : Vec3) : Xform :=
  ⟨Mat3.ofCols (unitize x)
    (cross (cross (unitize x) (unitize y)) (unitize x))
    (cross (unitize x) (unitize y)), 0⟩

/-- Frame.transform (frame.py line 836): T is composed with the frame's own
matrix, then the translation and the two basis-vector columns are pushed
through the point/xaxis/yaxis setters, exactly like the constructor. -/
noncomputable def frameTransform (f : Frame) (T : Xform) : Frame :=
  mkFrame (T.compose (matrixFromFrame f)).t
    (T.compose (matrixFromFrame f)).basisX
    (T.compose (matrixFromFrame f)).basisY

/-- A rigid transformation: the rotation block is orthogonal (this is what
survives of rigidity after dropping the translation, which is arbitrary). -/
def Rigid (T : Xform) : Prop := T.R.transpose.mul T.R = 1

/-- Frame.represent_point_in_local_coordinates (frame.py line 650): subtract
the origin, then apply the inverse of the basis-vector matrix. -/
noncomputable def representPointInLocal (f : Frame) (p : Vec3) : Vec3 :=
  (matrixFromBasis f.xaxis f.yaxis).inverse.apply (p - f.point)

/-- Frame.represent_point_in_global_coordinates (frame.py line 679): apply
the frame's matrix. -/
noncomputable def representPointInGlobal (f : Frame) (p : Vec3) : Vec3 :=
  (matrixFromFrame f).apply p

/-- The distinct failure kinds surfaced by this core, following the error
taxonomy of spec section 7 plus the concrete Python exceptions raised by the
code (KeyError in Frame.__setitem__, ZeroDivisionError in the 1/(n-1)
covariance prefactor, ValueError for a wrong-length list, which realizes the
spec's InvalidRepresentationError kind). -/
inductive Err where
  | degenerateInput
  | insufficientData
  | convergence
  | invalidRepresentation
  | keyError
  | zeroDivision
deriving DecidableEq

/-- Sum of a list of vectors (the numpy sum over the point axis). -/
def vsum : List Vec3 → Vec3
  | [] => 0
  | a :: l => a + vsum l

/-- Centroid as computed in bestfit_plane_numpy line 56: sum / n. -/
noncomputable def centroid (pts : List Vec3) : Vec3 :=
  ((pts.length : ℝ))⁻¹ • vsum pts

/-- Action of the centered covariance matrix C = 1/(n-1) * Yt^T Yt of
bestfit_plane_numpy lines 55-58 on a vector: C v = 1/(n-1) sum_i (y_i . v) y_i
with y_i the centered points. -/
noncomputable def covMulVec (pts : List Vec3) (v : Vec3) : Vec3 :=
  (((pts.length : ℝ) - 1))⁻¹ •
    vsum (pts.map fun p => dot (p - centroid pts) v • (p - centroid pts))

/-- bestfit_plane_numpy (bestfit_numpy.py line 29).  The svd of the 3x3
covariance matrix is performed by scipy; its output vT enters as a parameter
and is constrained by its contract in the theorems below.  The function
returns the centroid and the last row of vT.  The only raising branch is the
prefactor m = 1.0/(n - 1.0), a Python ZeroDivisionError when n = 1.  (For an
empty input numpy produces a nan centroid without raising; the zero vector
stands in for it here and no theorem relies on that case.) -/
noncomputable def bestfitPlane (pts : List Vec3) (vT : Mat3) :
    Except Err (Vec3 × Vec3) :=
  if pts.length = 1 then Except.error Err.zeroDivision
  else Except.ok (centroid pts, vT.row2)

/-- A solution vector of the linearized sphere system of
bestfit_sphere_numpy: coefficients (a, b, c) for the center and the constant
coefficient d. -/
structure Vec4 where
  a : ℝ
  b : ℝ
  c : ℝ
  d : ℝ

/-- Row-times-solution minus right-hand side of the linearized sphere system
assembled in bestfit_sphere_numpy lines 215-227:
residual = 2x a + 2y b + 2z c + d - (x^2 + y^2 + z^2). -/
def sphereRes (u : Vec4) (p : Vec3) : ℝ :=
  2 * p.x * u.a + 2 * p.y * u.b + 2 * p.z * u.c + u.d
    - (p.x * p.x + p.y * p.y + p.z * p.z)

/-- The characterization of numpy lstsq output: the normal equations
A^T (A u - f) = 0 of the assembled system, one equation per column of A. -/
def NormalEq (pts : List Vec3) (u : Vec4) : Prop :=
  (pts.map fun p => 2 * p.x * sphereRes u p).sum = 0 ∧
  (pts.map fun p => 2 * p.y * sphereRes u p).sum = 0 ∧
  (pts.map fun p => 2 * p.z * sphereRes u p).sum = 0 ∧
  (pts.map fun p => sphereRes u p).sum = 0

/-- The input points do not all lie on a common plane (no nontrivial affine
relation a x + b y + c z + d = 0 holds across the whole list). -/
def Noncoplanar (pts : List Vec3) : Prop :=
  ∀ a b c d : ℝ, (∀ p ∈ pts, a * p.x + b * p.y + c * p.z + d = 0) →
    a = 0 ∧ b = 0 ∧ c = 0 ∧ d = 0

/-- bestfit_sphere_numpy (bestfit_numpy.py line 183).  The lstsq solution C
enters as a parameter; the function returns its first three coefficients as
the center and sqrt(C0^2 + C1^2 + C2^2 + C3) as the radius.  No branch of
the function raises. -/
noncomputable def bestfitSphere (pts : List Vec3) (u : Vec4) :
    Except Err (Vec3 × ℝ) :=
  Except.ok (⟨u.a, u.b, u.c⟩, Real.sqrt (u.a * u.a + u.b * u.b + u.c * u.c + u.d))

/-- The circle-fit output value of bestfit_circle_numpy lines 153-180, for a
given pca output (origin o, axes as the rows of uvw; pca_numpy is modelled
from the spec section 4.2) and a given leastsq solution c.  Local coordinates
are the projections onto the axes (local_coords_numpy, modelled from the
spec), Ri the in-plane distances to c, the radius their mean, and the center
is c re-expressed in world coordinates (global_coords_numpy, modelled from
the spec). -/
noncomputable def circleResult (pts : List Vec3) (o : Vec3) (uvw : Mat3)
    (c : ℝ × ℝ) : Vec3 × Vec3 × ℝ :=
  let Ri := pts.map fun p =>
    Real.sqrt ((dot (p - o) uvw.row0 - c.1) ^ 2 + (dot (p - o) uvw.row1 - c.2) ^ 2)
  (o + c.1 • uvw.row0 + c.2 • uvw.row1 + (0 : ℝ) • uvw.row2, uvw.row2,
    Ri.sum / pts.length)

/-- bestfit_circle_numpy (bestfit_numpy.py line 123).  The scipy leastsq
output is the pair (c, ier); the code unpacks both but never inspects ier:
the returned value is computed from c unconditionally and no branch raises. -/
noncomputable def bestfitCircle (pts : List Vec3) (o : Vec3) (uvw : Mat3)
    (c : ℝ × ℝ) (ier : ℤ) : Except Err (Vec3 × Vec3 × ℝ) :=
  Except.ok (circleResult pts o uvw c)

open Classical in
/-- The fallible frame construction run by Frame.from_matrix: the setter
pipeline of Frame.__init__, where Vector.unitize on a zero vector fails
(modelled from the spec section 4.1: normalize on a zero-length vector fails
with DegenerateInputError), first in the xaxis setter, then on the unitized
input or on the zero cross product inside the yaxis setter. -/
noncomputable def mkFrameChecked (p x y : Vec3) : Except Err Frame :=
  if x = 0 then Except.error Err.degenerateInput
  else if y = 0 then Except.error Err.degenerateInput
  else if cross (unitize x) (unitize y) = 0 then Except.error Err.degenerateInput
  else Except.ok (mkFrame p x y)

/-- Entry (i, j) of the row-major 4x4 matrix assembled by Frame.from_list
line 270: values[i * 4 + j]. -/
def matrixOfList (vs : List ℝ) (i j : ℕ) : ℝ := vs.getD (i * 4 + j) 0

/-- Frame.from_matrix (frame.py line 200).  The decompose_matrix /
matrix_from_euler_angles / basis_vectors_from_matrix pipeline is not part of
the provided sources; modelled from the spec section 4.3: the rotation
enters through its first two columns and the translation column (indices
3, 7, 11) becomes the origin, after which the frame constructor runs. -/
noncomputable def frameFromMatrix (m : ℕ → ℕ → ℝ) : Except Err Frame :=
  mkFrameChecked ⟨m 0 3, m 1 3, m 2 3⟩ ⟨m 0 0, m 1 0, m 2 0⟩ ⟨m 0 1, m 1 1, m 2 1⟩

/-- Frame.from_list (frame.py line 231): a 12-entry list is extended with
the homogeneous row [0, 0, 0, 1]; any other length than 16 then raises
ValueError (the spec's InvalidRepresentationError kind); otherwise the
row-major matrix is assembled and handed to from_matrix. -/
noncomputable def frameFromList (vs : List ℝ) : Except Err Frame :=
  let vs2 := if vs.length = 12 then vs ++ [0, 0, 0, 1] else vs
  if vs2.length = 16 then frameFromMatrix (matrixOfList vs2)
  else Except.error Err.invalidRepresentation

open Classical in
/-- Frame.__setitem__ (frame.py line 566), as a state transformer returning
the new frame state and the exception, if any, that propagates to the
caller.  Key 0 runs the point setter and returns; key 1 runs the xaxis
setter and returns; key 2 runs the yaxis setter and then falls through to
raise KeyError (there is no return statement in that branch); any other key
raises KeyError without touching the frame.  A degenerate axis value makes
the setter itself fail before assignment (see mkFrameChecked). -/
noncomputable def setitem (f : Frame) (k : ℤ) (v : Vec3) : Frame × Option Err :=
  if k = 0 then (setPoint f v, none)
  else if k = 1 then
    if v = 0 then (f, some Err.degenerateInput) else (setXaxis f v, none)
  else if k = 2 then
    if v = 0 then (f, some Err.degenerateInput)
    else if cross f.xaxis (unitize v) = 0 then (f, some Err.degenerateInput)
    else (setYaxis f v, some Err.keyError)
  else (f, some Err.keyError)

namespace Vec3

@[simp] theorem zero_x : (0 : Vec3).x = 0 := rfl

@[simp] theorem zero_y : (0 : Vec3).y = 0 := rfl

@[simp] theorem zero_z : (0 : Vec3).z = 0 := rfl

@[simp] theorem add_x (a b : Vec3) : (a + b).x = a.x + b.x := rfl

@[simp] theorem add_y (a b : Vec3) : (a + b).y = a.y + b.y := rfl

@[simp] theorem add_z (a b : Vec3) : (a + b).z = a.z + b.z := rfl

@[simp] theorem sub_x (a b : Vec3) : (a - b).x = a.x - b.x := rfl

@[simp] theorem sub_y (a b : Vec3) : (a - b).y = a.y - b.y := rfl

@[simp] theorem sub_z (a b : Vec3) : (a - b).z = a.z - b.z := rfl

@[simp] theorem neg_x (a : Vec3) : (-a).x = -a.x := rfl

@[simp] theorem neg_y (a : Vec3) : (-a).y = -a.y := rfl

@[simp] theorem neg_z (a : Vec3) : (-a).z = -a.z := rfl

@[simp] theorem smul_x (t : ℝ) (a : Vec3) : (t • a).x = t * a.x := rfl

@[simp] theorem smul_y (t : ℝ) (a : Vec3) : (t • a).y = t * a.y := rfl

@[simp] theorem smul_z (t : ℝ) (a : Vec3) : (t • a).z = t * a.z := rfl

end Vec3

theorem dot_comm (a b : Vec3) : dot a b = dot b a := by
  simp [dot]; ring

theorem dot_self_nonneg (a : Vec3) : 0 ≤ dot a a := by
  simp only [dot]
  nlinarith [sq_nonneg a.x, sq_nonneg a.y, sq_nonneg a.z]

theorem dot_self_eq_zero_iff (a : Vec3) : dot a a = 0 ↔ a = 0 := by
  constructor
  · intro h
    simp only [dot] at h
    have hx : a.x = 0 := by nlinarith [sq_nonneg a.x, sq_nonneg a.y, sq_nonneg a.z]
    have hy : a.y = 0 := by nlinarith [sq_nonneg a.x, sq_nonneg a.y, sq_nonneg a.z]
    have hz : a.z = 0 := by nlinarith [sq_nonneg a.x, sq_nonneg a.y, sq_nonneg a.z]
    ext <;> simp [hx, hy, hz]
  · intro h; subst h; simp [dot]

theorem dot_self_pos (a : Vec3) (h : a ≠ 0) : 0 < dot a a := by
  rcases lt_or_eq_of_le (dot_self_nonneg a) with h' | h'
  · exact h'
  · exact absurd ((dot_self_eq_zero_iff a).mp h'.symm) h

theorem ne_zero_of_dot_self_ne_zero (a : Vec3) (h : dot a a ≠ 0) : a ≠ 0 := by
  intro h0; subst h0; simp [dot] at h

@[simp] theorem dot_smul_left (t : ℝ) (a b : Vec3) : dot (t • a) b = t * dot a b := by
  simp [dot]; ring

@[simp] theorem dot_smul_right (t : ℝ) (a b : Vec3) : dot a (t • b) = t * dot a b := by
  simp [dot]; ring

@[simp] theorem dot_add_left (a b c : Vec3) : dot (a + b) c = dot a c + dot b c := by
  simp [dot]; ring

@[simp] theorem dot_add_right (a b c : Vec3) : dot a (b + c) = dot a b + dot a c := by
  simp [dot]; ring

@[simp] theorem dot_sub_left (a b c : Vec3) : dot (a - b) c = dot a c - dot b c := by
  simp [dot]; ring

@[simp] theorem dot_sub_right (a b c : Vec3) : dot a (b - c) = dot a b - dot a c := by
  simp [dot]; ring

@[simp] theorem dot_neg_left (a b : Vec3) : dot (-a) b = -dot a b := by
  simp [dot]; ring

@[simp] theorem dot_neg_right (a b : Vec3) : dot a (-b) = -dot a b := by
  simp [dot]; ring

@[simp] theorem dot_zero_left (a : Vec3) : dot 0 a = 0 := by simp [dot]

@[simp] theorem dot_zero_right (a : Vec3) : dot a 0 = 0 := by simp [dot]

theorem dot_cross_left (a b : Vec3) : dot (cross a b) a = 0 := by
  simp [dot, cross]; ring

theorem dot_cross_right (a b : Vec3) : dot (cross a b) b = 0 := by
  simp [dot, cross]; ring

theorem lagrange_identity (a b : Vec3) :
    dot (cross a b) (cross a b) = dot a a * dot b b - (dot a b) ^ 2 := by
  simp [dot, cross]; ring

/-- Vector triple product, left-grouped: (a x b) x c = (a.c) b - (b.c) a. -/
theorem cross_cross_left (a b c : Vec3) :
    cross (cross a b) c = dot a c • b - dot b c • a := by
  ext <;> simp [dot, cross] <;> ring

/-- Vector triple product, right-grouped: a x (b x c) = (a.c) b - (a.b) c. -/
theorem cross_cross_right (a b c : Vec3) :
    cross a (cross b c) = dot a c • b - dot a b • c := by
  ext <;> simp [dot, cross] <;> ring

theorem cross_smul_left (t : ℝ) (a b : Vec3) : cross (t • a) b = t • cross a b := by
  ext <;> simp [cross] <;> ring

theorem cross_smul_right (t : ℝ) (a b : Vec3) : cross a (t • b) = t • cross a b := by
  ext <;> simp [cross] <;> ring

theorem unitize_unit (v : Vec3) (h : v ≠ 0) : dot (unitize v) (unitize v) = 1 := by
  have hd : 0 < dot v v := dot_self_pos v h
  have hs : Real.sqrt (dot v v) ^ 2 = dot v v := Real.sq_sqrt (le_of_lt hd)
  have hsp : 0 < Real.sqrt (dot v v) := Real.sqrt_pos.mpr hd
  simp only [unitize, vlength, dot_smul_left, dot_smul_right]
  rw [← hs]
  field_simp

theorem unitize_of_unit (v : Vec3) (h : dot v v = 1) : unitize v = v := by
  simp [unitize, vlength, h]

@[simp] theorem unitize_zero : unitize 0 = 0 := by
  simp [unitize]

theorem unitize_eq_smul (v : Vec3) : unitize v = (Real.sqrt (dot v v))⁻¹ • v := rfl

theorem unitize_ne_zero (v : Vec3) (h : v ≠ 0) : unitize v ≠ 0 := by
  intro h0
  have := unitize_unit v h
  rw [h0] at this
  simp at this

namespace Mat3

@[simp] theorem one_m00 : (1 : Mat3).m00 = 1 := rfl

@[simp] theorem one_m01 : (1 : Mat3).m01 = 0 := rfl

@[simp] theorem one_m02 : (1 : Mat3).m02 = 0 := rfl

@[simp] theorem one_m10 : (1 : Mat3).m10 = 0 := rfl

@[simp] theorem one_m11 : (1 : Mat3).m11 = 1 := rfl

@[simp] theorem one_m12 : (1 : Mat3).m12 = 0 := rfl

@[simp] theorem one_m20 : (1 : Mat3).m20 = 0 := rfl

@[simp] theorem one_m21 : (1 : Mat3).m21 = 0 := rfl

@[simp] theorem one_m22 : (1 : Mat3).m22 = 1 := rfl

theorem mul_assoc3 (A B C : Mat3) : (A.mul B).mul C = A.mul (B.mul C) := by
  ext <;> simp [mul] <;> ring

theorem one_mul3 (M : Mat3) : (1 : Mat3).mul M = M := by
  ext <;> simp [mul, One.one]

theorem mul_one3 (M : Mat3) : M.mul (1 : Mat3) = M := by
  ext <;> simp [mul, One.one]

theorem det_mul3 (A B : Mat3) : (A.mul B).det = A.det * B.det := by
  simp [det, mul]; ring

@[simp] theorem det_one3 : (1 : Mat3).det = 1 := by
  simp [det, One.one]

theorem mul_inv3 (M : Mat3) (h : M.det ≠ 0) : M.mul M.inv = 1 := by
  have hd := h
  simp only [det] at hd
  ext <;> simp [mul, inv, One.one, det] <;> field_simp <;> ring

theorem inv_mul3 (M : Mat3) (h : M.det ≠ 0) : M.inv.mul M = 1 := by
  have hd := h
  simp only [det] at hd
  ext <;> simp [mul, inv, One.one, det] <;> field_simp <;> ring

/-- For square matrices a right inverse is a left inverse. -/
theorem mul_eq_one_comm3 (M N : Mat3) (h : M.mul N = 1) : N.mul M = 1 := by
  have hdet : M.det * N.det = 1 := by
    rw [← det_mul3, h, det_one3]
  have hM : M.det ≠ 0 := by
    intro h0; rw [h0, zero_mul] at hdet; exact one_ne_zero hdet.symm
  have hN : N.mul M = (M.inv.mul M).mul (N.mul M) := by
    rw [inv_mul3 M hM, one_mul3]
  have hN2 : (M.inv.mul M).mul (N.mul M) = M.inv.mul M := by
    rw [mul_assoc3, ← mul_assoc3 M N M, h, one_mul3]
  rw [hN, hN2, inv_mul3 M hM]

theorem mulVec_mulVec (M N : Mat3) (v : Vec3) :
    M.mulVec (N.mulVec v) = (M.mul N).mulVec v := by
  ext <;> simp [mulVec, mul] <;> ring

@[simp] theorem one_mulVec (v : Vec3) : (1 : Mat3).mulVec v = v := by
  ext <;> simp [mulVec, One.one]

@[simp] theorem mulVec_zero (M : Mat3) : M.mulVec 0 = 0 := by
  ext <;> simp [mulVec]

theorem mulVec_inv_cancel (M : Mat3) (h : M.det ≠ 0) (w : Vec3) :
    M.mulVec (M.inv.mulVec w) = w := by
  rw [mulVec_mulVec, mul_inv3 M h, one_mulVec]

theorem col0_mul (M N : Mat3) : (M.mul N).col0 = M.mulVec N.col0 := by
  ext <;> simp [mul, mulVec, col0]

theorem col1_mul (M N : Mat3) : (M.mul N).col1 = M.mulVec N.col1 := by
  ext <;> simp [mul, mulVec, col1]

@[simp] theorem ofCols_col0 (a b c : Vec3) : (ofCols a b c).col0 = a := by
  ext <;> simp [ofCols, col0]

@[simp] theorem ofCols_col1 (a b c : Vec3) : (ofCols a b c).col1 = b := by
  ext <;> simp [ofCols, col1]

@[simp] theorem ofCols_col2 (a b c : Vec3) : (ofCols a b c).col2 = c := by
  ext <;> simp [ofCols, col2]

theorem det_ofCols (a b c : Vec3) : (ofCols a b c).det = dot (cross a b) c := by
  simp [det, ofCols, dot, cross]; ring

/-- An orthogonal matrix preserves the dot product of vectors. -/
theorem mulVec_dot_of_orthogonal (M : Mat3) (h : M.transpose.mul M = 1)
    (u v : Vec3) : dot (M.mulVec u) (M.mulVec v) = dot u v := by
  have h00 := congrArg Mat3.m00 h
  have h01 := congrArg Mat3.m01 h
  have h02 := congrArg Mat3.m02 h
  have h11 := congrArg Mat3.m11 h
  have h12 := congrArg Mat3.m12 h
  have h22 := congrArg Mat3.m22 h
  simp only [mul, transpose, one_m00, one_m01, one_m02, one_m10, one_m11, one_m12, one_m20, one_m21, one_m22] at h00 h01 h02 h11 h12 h22
  simp only [dot, mulVec]
  linear_combination (u.x * v.x) * h00 + (u.x * v.y + u.y * v.x) * h01 +
    (u.x * v.z + u.z * v.x) * h02 + (u.y * v.y) * h11 +
    (u.y * v.z + u.z * v.y) * h12 + (u.z * v.z) * h22

/-- The rows of an orthogonal matrix form a complete orthonormal system:
every vector is the sum of its projections onto the rows. -/
theorem rows_complete (M : Mat3) (h : M.transpose.mul M = 1) (v : Vec3) :
    v = dot v M.row0 • M.row0 + dot v M.row1 • M.row1 + dot v M.row2 • M.row2 := by
  have h00 := congrArg Mat3.m00 h
  have h01 := congrArg Mat3.m01 h
  have h02 := congrArg Mat3.m02 h
  have h11 := congrArg Mat3.m11 h
  have h12 := congrArg Mat3.m12 h
  have h22 := congrArg Mat3.m22 h
  simp only [mul, transpose, one_m00, one_m01, one_m02, one_m10, one_m11, one_m12, one_m20, one_m21, one_m22] at h00 h01 h02 h11 h12 h22
  ext
  · simp only [Vec3.add_x, Vec3.smul_x, dot, row0, row1, row2]
    linear_combination (-v.x) * h00 + (-v.y) * h01 + (-v.z) * h02
  · simp only [Vec3.add_y, Vec3.smul_y, dot, row0, row1, row2]
    linear_combination (-v.x) * h01 + (-v.y) * h11 + (-v.z) * h12
  · simp only [Vec3.add_z, Vec3.smul_z, dot, row0, row1, row2]
    linear_combination (-v.x) * h02 + (-v.y) * h12 + (-v.z) * h22

theorem rows_orthonormal (M : Mat3) (h : M.mul M.transpose = 1) :
    dot M.row0 M.row0 = 1 ∧ dot M.row1 M.row1 = 1 ∧ dot M.row2 M.row2 = 1 ∧
    dot M.row0 M.row1 = 0 ∧ dot M.row0 M.row2 = 0 ∧ dot M.row1 M.row2 = 0 := by
  have h00 := congrArg Mat3.m00 h
  have h01 := congrArg Mat3.m01 h
  have h02 := congrArg Mat3.m02 h
  have h11 := congrArg Mat3.m11 h
  have h12 := congrArg Mat3.m12 h
  have h22 := congrArg Mat3.m22 h
  simp only [mul, transpose, one_m00, one_m01, one_m02, one_m10, one_m11, one_m12, one_m20, one_m21, one_m22] at h00 h01 h02 h11 h12 h22
  refine ⟨?_, ?_, ?_, ?_, ?_, ?_⟩ <;> simp only [dot, row0, row1, row2] <;>
    linarith [h00, h01, h02, h11, h12, h22]

end Mat3

@[simp] theorem setPoint_point (f : Frame) (p : Vec3) : (setPoint f p).point = p := rfl

@[simp] theorem setPoint_xaxis (f : Frame) (p : Vec3) : (setPoint f p).xaxis = f.xaxis := rfl

@[simp] theorem setPoint_yaxis (f : Frame) (p : Vec3) : (setPoint f p).yaxis = f.yaxis := rfl

@[simp] theorem setXaxis_point (f : Frame) (v : Vec3) : (setXaxis f v).point = f.point := rfl

@[simp] theorem setXaxis_xaxis (f : Frame) (v : Vec3) : (setXaxis f v).xaxis = unitize v := rfl

@[simp] theorem setXaxis_yaxis (f : Frame) (v : Vec3) : (setXaxis f v).yaxis = f.yaxis := rfl

@[simp] theorem setYaxis_point (f : Frame) (v : Vec3) : (setYaxis f v).point = f.point := rfl

@[simp] theorem setYaxis_xaxis (f : Frame) (v : Vec3) : (setYaxis f v).xaxis = f.xaxis := rfl

@[simp] theorem setYaxis_yaxis (f : Frame) (v : Vec3) :
    (setYaxis f v).yaxis = cross (unitize (cross f.xaxis (unitize v))) f.xaxis := rfl

@[simp] theorem mkFrame_point (p x y : Vec3) : (mkFrame p x y).point = p := rfl

@[simp] theorem mkFrame_xaxis (p x y : Vec3) : (mkFrame p x y).xaxis = unitize x := rfl

@[simp] theorem mkFrame_yaxis (p x y : Vec3) :
    (mkFrame p x y).yaxis = cross (unitize (cross (unitize x) (unitize y))) (unitize x) := rfl

/-- Core orthonormalization fact: if the current xaxis is unit and the input
is not parallel to it, the yaxis setter restores the full invariant. -/
theorem setYaxis_inv (f : Frame) (v : Vec3) (hx : dot f.xaxis f.xaxis = 1)
    (hc : cross f.xaxis (unitize v) ≠ 0) : FrameInv (setYaxis f v) := by
  set a := f.xaxis with ha
  set c := cross a (unitize v) with hcdef
  set w := unitize c with hwdef
  have hw : dot w w = 1 := unitize_unit c hc
  have hwa : dot w a = 0 := by
    have h1 : dot c a = 0 := dot_cross_left a (unitize v)
    rw [hwdef, unitize_eq_smul, dot_smul_left, h1, mul_zero]
  have hy : (setYaxis f v).yaxis = cross w a := rfl
  have hz : cross a (cross w a) = w := by
    rw [cross_cross_right]
    rw [hx, dot_comm a w, hwa]
    simp
  refine ⟨hx, ?_, ?_, ?_⟩
  · rw [hy, lagrange_identity, hw, hx, hwa]
    ring
  · rw [hy]
    have : dot (cross w a) a = 0 := dot_cross_right w a
    rw [dot_comm]; exact this
  · show tripleProd a (cross w a) (cross a (cross w a)) = 1
    rw [hz, tripleProd, cross_cross_left, dot_sub_right, dot_smul_right, dot_smul_right]
    rw [hw, dot_comm a w, hwa, hx]
    ring

/-- The constructor restores the invariant for all non-degenerate inputs. -/
theorem mkFrame_inv (p x y : Vec3) (hx : x ≠ 0)
    (hc : cross (unitize x) (unitize y) ≠ 0) : FrameInv (mkFrame p x y) := by
  have hxx : dot (unitize x) (unitize x) = 1 := unitize_unit x hx
  exact setYaxis_inv (setXaxis (setPoint ⟨0, 0, 0⟩ p) x) y hxx hc

@[simp] theorem vsum_nil : vsum [] = 0 := rfl

@[simp] theorem vsum_cons (a : Vec3) (l : List Vec3) : vsum (a :: l) = a + vsum l := rfl

theorem dot_vsum (l : List Vec3) (v : Vec3) :
    dot (vsum l) v = (l.map fun u => dot u v).sum := by
  induction l with
  | nil => simp
  | cons a t ih => simp [ih]

theorem sum_map_const_real {α : Type} (l : List α) (k : ℝ) :
    (l.map fun _ => k).sum = l.length * k := by
  induction l with
  | nil => simp
  | cons a t ih => simp [ih]; ring

theorem sum_map_add_real {α : Type} (l : List α) (f g : α → ℝ) :
    (l.map fun p => f p + g p).sum = (l.map f).sum + (l.map g).sum := by
  induction l with
  | nil => simp
  | cons a t ih => simp [ih]; ring

theorem sum_map_mul_left_real {α : Type} (l : List α) (c : ℝ) (f : α → ℝ) :
    (l.map fun p => c * f p).sum = c * (l.map f).sum := by
  induction l with
  | nil => simp
  | cons a t ih => simp [ih]; ring

theorem sum_nonneg_list (l : List ℝ) (h : ∀ x ∈ l, 0 ≤ x) : 0 ≤ l.sum := by
  induction l with
  | nil => simp
  | cons a t ih =>
    simp only [List.sum_cons]
    have ha := h a (by simp)
    have ht := ih fun x hx => h x (by simp [hx])
    linarith

theorem eq_zero_of_sum_eq_zero (l : List ℝ) (h : ∀ x ∈ l, 0 ≤ x)
    (hs : l.sum = 0) : ∀ x ∈ l, x = 0 := by
  induction l with
  | nil => simp
  | cons a t ih =>
    simp only [List.sum_cons] at hs
    have ha := h a (by simp)
    have ht : 0 ≤ t.sum := sum_nonneg_list t fun x hx => h x (by simp [hx])
    have ha0 : a = 0 := by linarith
    have hts : t.sum = 0 := by linarith
    intro x hx
    rcases List.mem_cons.mp hx with h1 | h1
    · rw [h1]; exact ha0
    · exact ih (fun y hy => h y (by simp [hy])) hts x h1

theorem vsum_map_add {α : Type} (l : List α) (f g : α → Vec3) :
    vsum (l.map fun p => f p + g p) = vsum (l.map f) + vsum (l.map g) := by
  induction l with
  | nil => simp
  | cons a t ih =>
    simp only [List.map_cons, vsum_cons, ih]
    abel

theorem vsum_map_smul {α : Type} (l : List α) (c : ℝ) (f : α → Vec3) :
    vsum (l.map fun p => c • f p) = c • vsum (l.map f) := by
  induction l with
  | nil => simp
  | cons a t ih =>
    simp only [List.map_cons, vsum_cons, ih, smul_add]

theorem vsum_map_zero {α : Type} (l : List α) :
    vsum (l.map fun _ => (0 : Vec3)) = 0 := by
  induction l with
  | nil => simp
  | cons a t ih => simp only [List.map_cons, vsum_cons, ih, add_zero]

/-- The covariance action is additive in its vector argument. -/
theorem covMulVec_add (pts : List Vec3) (u w : Vec3) :
    covMulVec pts (u + w) = covMulVec pts u + covMulVec pts w := by
  simp only [covMulVec]
  have h : (pts.map fun p =>
      dot (p - centroid pts) (u + w) • (p - centroid pts)) =
      pts.map fun p => (dot (p - centroid pts) u • (p - centroid pts) +
        dot (p - centroid pts) w • (p - centroid pts)) := by
    apply List.map_congr_left
    intro p _
    rw [dot_add_right, add_smul]
  rw [h, vsum_map_add, smul_add]

/-- The covariance action commutes with scalar multiplication. -/
theorem covMulVec_smul (pts : List Vec3) (a : ℝ) (u : Vec3) :
    covMulVec pts (a • u) = a • covMulVec pts u := by
  simp only [covMulVec]
  have h : (pts.map fun p =>
      dot (p - centroid pts) (a • u) • (p - centroid pts)) =
      pts.map fun p => a • (dot (p - centroid pts) u • (p - centroid pts)) := by
    apply List.map_congr_left
    intro p _
    rw [dot_smul_right, smul_smul]
  rw [h, vsum_map_smul, smul_comm]

/-- Quadratic form of the covariance action. -/
theorem dot_covMulVec (pts : List Vec3) (v w : Vec3) :
    dot w (covMulVec pts v) =
      ((pts.length : ℝ) - 1)⁻¹ *
        (pts.map fun p => dot (p - centroid pts) v * dot (p - centroid pts) w).sum := by
  simp only [covMulVec, dot_smul_right]
  congr 1
  rw [dot_comm, dot_vsum, List.map_map]
  have hm : List.map ((fun u => dot u w) ∘ fun p =>
      dot (p - centroid pts) v • (p - centroid pts)) pts =
      List.map (fun p => dot (p - centroid pts) v * dot (p - centroid pts) w) pts := by
    apply List.map_congr_left
    intro p _
    simp only [Function.comp_apply, dot_smul_left]
  rw [hm]

/-- A vector whose cross product with a nonzero vector vanishes is a scalar
multiple of it. -/
theorem eq_smul_of_cross_eq_zero (w z : Vec3) (hz : z ≠ 0) (h : cross w z = 0) :
    w = (dot w z / dot z z) • z := by
  have hzz : dot z z ≠ 0 := fun h0 => hz ((dot_self_eq_zero_iff z).mp h0)
  have hx := congrArg Vec3.x h
  have hy := congrArg Vec3.y h
  have hz2 := congrArg Vec3.z h
  simp only [cross, Vec3.zero_x, Vec3.zero_y, Vec3.zero_z] at hx hy hz2
  have hd : dot z z = z.x * z.x + z.y * z.y + z.z * z.z := rfl
  ext
  · show w.x = dot w z / dot z z * z.x
    rw [div_mul_eq_mul_div, eq_div_iff hzz, hd]
    simp only [dot]
    linear_combination z.y * hz2 - z.z * hy
  · show w.y = dot w z / dot z z * z.y
    rw [div_mul_eq_mul_div, eq_div_iff hzz, hd]
    simp only [dot]
    linear_combination (-z.x) * hz2 + z.z * hx
  · show w.z = dot w z / dot z z * z.z
    rw [div_mul_eq_mul_div, eq_div_iff hzz, hd]
    simp only [dot]
    linear_combination z.x * hy + (-z.y) * hx

/-- Claim C7: for every triple of unit, mutually orthogonal vectors (x, y, z)
with z = x cross y and every origin o, Frame(o, x, y) stores the origin and
xaxis exactly, stores yaxis equal to y, and its derived zaxis equals z (all
exact in real arithmetic, hence within any tolerance). -/
theorem frame_constructor_reproduces_triad (o x y z : Vec3)
    (hx : dot x x = 1) (hy : dot y y = 1) (hxy : dot x y = 0)
    (hz : z = cross x y) :
    (mkFrame o x y).point = o ∧ (mkFrame o x y).xaxis = x ∧
    (mkFrame o x y).yaxis = y ∧ zaxis (mkFrame o x y) = z := by
  have hux : unitize x = x := unitize_of_unit x hx
  have huy : unitize y = y := unitize_of_unit y hy
  have hcu : dot (cross x y) (cross x y) = 1 := by
    rw [lagrange_identity, hx, hy, hxy]; ring
  have hucross : unitize (cross x y) = cross x y := unitize_of_unit _ hcu
  have hyy : cross (cross x y) x = y := by
    rw [cross_cross_left, hx, dot_comm y x, hxy]
    simp
  refine ⟨rfl, ?_, ?_, ?_⟩
  · rw [mkFrame_xaxis, hux]
  · rw [mkFrame_yaxis, hux, huy, hucross, hyy]
  · rw [zaxis, mkFrame_xaxis, mkFrame_yaxis, hux, huy, hucross, hyy, hz]

/-- Witness for C7 at the world frame data. -/
theorem frame_constructor_reproduces_triad_witness :
    (mkFrame ⟨0, 0, 0⟩ ⟨1, 0, 0⟩ ⟨0, 1, 0⟩).point = ⟨0, 0, 0⟩ ∧
    (mkFrame ⟨0, 0, 0⟩ ⟨1, 0, 0⟩ ⟨0, 1, 0⟩).xaxis = ⟨1, 0, 0⟩ ∧
    (mkFrame ⟨0, 0, 0⟩ ⟨1, 0, 0⟩ ⟨0, 1, 0⟩).yaxis = ⟨0, 1, 0⟩ ∧
    zaxis (mkFrame ⟨0, 0, 0⟩ ⟨1, 0, 0⟩ ⟨0, 1, 0⟩) = ⟨0, 0, 1⟩ :=
  frame_constructor_reproduces_triad ⟨0, 0, 0⟩ ⟨1, 0, 0⟩ ⟨0, 1, 0⟩ ⟨0, 0, 1⟩
    (by norm_num [dot]) (by norm_num [dot]) (by norm_num [dot])
    (by ext <;> norm_num [cross])

/-- Counterexample to claim C5 as stated: bestfit_plane_numpy on a two-point
input (below the minimum of 3) does not raise InsufficientDataError; it
returns a fitted plane normally. -/
theorem bestfit_min_points_cex :
    bestfitPlane [(⟨0, 0, 0⟩ : Vec3), ⟨1, 0, 0⟩] 1 ≠
      Except.error Err.insufficientData := by
  simp [bestfitPlane]

/-- Claim C5 amended: no estimator raises InsufficientDataError below its
minimum point count.  The plane fit returns a result for any 2-point input
and fails for a single point only with the division-by-zero of the 1/(n-1)
prefactor; the sphere fit returns the least-squares output for every input
list whatsoever. -/
theorem bestfit_min_points_behavior :
    (∀ (p q : Vec3) (vT : Mat3),
      bestfitPlane [p, q] vT = Except.ok (centroid [p, q], vT.row2)) ∧
    (∀ (p : Vec3) (vT : Mat3),
      bestfitPlane [p] vT = Except.error Err.zeroDivision) ∧
    (∀ (pts : List Vec3) (u : Vec4), bestfitSphere pts u =
      Except.ok (⟨u.a, u.b, u.c⟩,
        Real.sqrt (u.a * u.a + u.b * u.b + u.c * u.c + u.d))) := by
  refine ⟨?_, ?_, ?_⟩ <;> intros <;> simp [bestfitPlane, bestfitSphere]

/-- Counterexample to claim C6 as stated: bestfit_circle_numpy with a
leastsq output flagged as non-converged (ier = 5) does not raise
ConvergenceError; it returns a value computed from the returned parameters. -/
theorem circle_convergence_cex :
    bestfitCircle [(⟨1, 0, 0⟩ : Vec3), ⟨0, 1, 0⟩, ⟨-1, 0, 0⟩] 0 1 (0, 0) 5 ≠
      Except.error Err.convergence := by
  simp [bestfitCircle]

/-- Claim C6 amended: bestfit_circle_numpy ignores the leastsq status flag
ier entirely; for every input and every flag value the result is the value
computed from the returned parameters, and no ConvergenceError is raised. -/
theorem circle_ignores_convergence_flag :
    ∀ (pts : List Vec3) (o : Vec3) (uvw : Mat3) (c : ℝ × ℝ) (ier : ℤ),
      bestfitCircle pts o uvw c ier = Except.ok (circleResult pts o uvw c) :=
  fun _ _ _ _ _ => rfl

/-- Claim C9: Frame.__setitem__ with key 0 updates the origin and returns
normally, key 1 updates and unitizes the x-axis and returns normally, key 2
updates the stored y-axis and still raises KeyError (the branch lacks a
return, so the raise is reached after the mutation), and any other key
raises KeyError leaving the frame unchanged.  Keys 1 and 2 assume an axis
value the setter does not reject as degenerate. -/
theorem setitem_branches :
    (∀ (f : Frame) (v : Vec3), setitem f 0 v = (setPoint f v, none)) ∧
    (∀ (f : Frame) (v : Vec3), v ≠ 0 → setitem f 1 v = (setXaxis f v, none)) ∧
    (∀ (f : Frame) (v : Vec3), v ≠ 0 → cross f.xaxis (unitize v) ≠ 0 →
      setitem f 2 v = (setYaxis f v, some Err.keyError)) ∧
    (∀ (f : Frame) (k : ℤ) (v : Vec3), k ≠ 0 → k ≠ 1 → k ≠ 2 →
      setitem f k v = (f, some Err.keyError)) := by
  refine ⟨?_, ?_, ?_, ?_⟩
  · intro f v; simp [setitem]
  · intro f v hv; simp [setitem, hv]
  · intro f v hv hc; simp [setitem, hv, hc]
  · intro f k v h0 h1 h2; simp [setitem, h0, h1, h2]

/-- Witness for C9: all four branches at the world frame, including the
mutate-then-raise branch for key 2. -/
theorem setitem_branches_witness :
    setitem ⟨⟨0, 0, 0⟩, ⟨1, 0, 0⟩, ⟨0, 1, 0⟩⟩ 0 ⟨5, 6, 7⟩ =
      (setPoint ⟨⟨0, 0, 0⟩, ⟨1, 0, 0⟩, ⟨0, 1, 0⟩⟩ ⟨5, 6, 7⟩, none) ∧
    setitem ⟨⟨0, 0, 0⟩, ⟨1, 0, 0⟩, ⟨0, 1, 0⟩⟩ 1 ⟨0, 1, 0⟩ =
      (setXaxis ⟨⟨0, 0, 0⟩, ⟨1, 0, 0⟩, ⟨0, 1, 0⟩⟩ ⟨0, 1, 0⟩, none) ∧
    setitem ⟨⟨0, 0, 0⟩, ⟨1, 0, 0⟩, ⟨0, 1, 0⟩⟩ 2 ⟨0, 1, 0⟩ =
      (setYaxis ⟨⟨0, 0, 0⟩, ⟨1, 0, 0⟩, ⟨0, 1, 0⟩⟩ ⟨0, 1, 0⟩, some Err.keyError) ∧
    setitem ⟨⟨0, 0, 0⟩, ⟨1, 0, 0⟩, ⟨0, 1, 0⟩⟩ 7 ⟨0, 1, 0⟩ =
      (⟨⟨0, 0, 0⟩, ⟨1, 0, 0⟩, ⟨0, 1, 0⟩⟩, some Err.keyError) := by
  have hv : (⟨0, 1, 0⟩ : Vec3) ≠ 0 := by
    intro h
    have := congrArg Vec3.y h
    norm_num at this
  have hu : unitize (⟨0, 1, 0⟩ : Vec3) = ⟨0, 1, 0⟩ :=
    unitize_of_unit _ (by norm_num [dot])
  have hc : cross (Frame.mk ⟨0, 0, 0⟩ ⟨1, 0, 0⟩ ⟨0, 1, 0⟩).xaxis
      (unitize ⟨0, 1, 0⟩) ≠ 0 := by
    rw [hu]
    intro h
    have := congrArg Vec3.z h
    norm_num [cross] at this
  exact ⟨setitem_branches.1 _ _, setitem_branches.2.1 _ _ hv,
    setitem_branches.2.2.1 _ _ hv hc,
    setitem_branches.2.2.2 _ 7 _ (by norm_num) (by norm_num) (by norm_num)⟩

/-- Claim C10: for at least 2 points, bestfit_plane_numpy returns normally
and the returned normal, being a row of the orthogonal right-singular-vector
factor of the svd, has unit length. -/
theorem bestfit_plane_unit_normal (pts : List Vec3) (vT : Mat3)
    (hn : 2 ≤ pts.length) (hcols : vT.transpose.mul vT = 1) :
    bestfitPlane pts vT = Except.ok (centroid pts, vT.row2) ∧
    dot vT.row2 vT.row2 = 1 := by
  constructor
  · have h1 : pts.length ≠ 1 := by omega
    simp [bestfitPlane, h1]
  · have hrows : vT.mul vT.transpose = 1 := Mat3.mul_eq_one_comm3 _ _ hcols
    exact (Mat3.rows_orthonormal vT hrows).2.2.1

/-- Witness for C10 at a concrete 2-point input and the identity svd factor. -/
theorem bestfit_plane_unit_normal_witness :
    bestfitPlane [(⟨0, 0, 0⟩ : Vec3), ⟨2, 0, 0⟩] 1 =
      Except.ok (centroid [(⟨0, 0, 0⟩ : Vec3), ⟨2, 0, 0⟩], (1 : Mat3).row2) ∧
    dot (1 : Mat3).row2 (1 : Mat3).row2 = 1 :=
  bestfit_plane_unit_normal [⟨0, 0, 0⟩, ⟨2, 0, 0⟩] 1 (by norm_num)
    (by ext <;> simp [Mat3.transpose, Mat3.mul])

/-- Counterexample to claim C1 as stated: the xaxis setter alone does not
re-establish the invariant.  Starting from the (invariant) world frame,
assigning the non-degenerate value (1, 1, 0) to xaxis leaves the stored
yaxis untouched, and the new xaxis is not perpendicular to it. -/
theorem frame_xaxis_setter_cex :
    FrameInv ⟨⟨0, 0, 0⟩, ⟨1, 0, 0⟩, ⟨0, 1, 0⟩⟩ ∧
    ¬ FrameInv (setXaxis ⟨⟨0, 0, 0⟩, ⟨1, 0, 0⟩, ⟨0, 1, 0⟩⟩ ⟨1, 1, 0⟩) := by
  constructor
  · refine ⟨?_, ?_, ?_, ?_⟩ <;> norm_num [dot, cross, tripleProd, zaxis]
  · intro h
    have h3 := h.2.2.1
    have hval : dot (setXaxis (⟨⟨0, 0, 0⟩, ⟨1, 0, 0⟩, ⟨0, 1, 0⟩⟩ : Frame)
        ⟨1, 1, 0⟩).xaxis (setXaxis (⟨⟨0, 0, 0⟩, ⟨1, 0, 0⟩, ⟨0, 1, 0⟩⟩ : Frame)
        ⟨1, 1, 0⟩).yaxis = (Real.sqrt 2)⁻¹ := by
      show dot (unitize ⟨1, 1, 0⟩) ⟨0, 1, 0⟩ = (Real.sqrt 2)⁻¹
      rw [unitize_eq_smul, dot_smul_left]
      norm_num [dot]
    rw [hval] at h3
    have h2 : (0 : ℝ) < Real.sqrt 2 := Real.sqrt_pos.mpr (by norm_num)
    exact (inv_ne_zero (ne_of_gt h2)) h3

/-- Claim C1 amended: the orthonormal right-handed invariant is established
by the constructor for every non-degenerate input, by the yaxis setter on
any frame with a unit xaxis, and by transform for every rigid transformation
of an invariant frame (transform re-runs the orthonormalizing setter
pipeline on the composed matrix).  The xaxis setter alone guarantees only a
unit xaxis: it does not re-orthogonalize the stored yaxis. -/
theorem frame_orthonormal_invariant :
    (∀ p x y : Vec3, x ≠ 0 → cross (unitize x) (unitize y) ≠ 0 →
      FrameInv (mkFrame p x y)) ∧
    (∀ (f : Frame) (v : Vec3), dot f.xaxis f.xaxis = 1 →
      cross f.xaxis (unitize v) ≠ 0 → FrameInv (setYaxis f v)) ∧
    (∀ (f : Frame) (v : Vec3), v ≠ 0 →
      dot (setXaxis f v).xaxis (setXaxis f v).xaxis = 1) ∧
    (∀ (f : Frame) (T : Xform), FrameInv f → Rigid T →
      FrameInv (frameTransform f T)) := by
  refine ⟨fun p x y hx hc => mkFrame_inv p x y hx hc,
    fun f v hx hc => setYaxis_inv f v hx hc,
    fun f v hv => unitize_unit v hv, ?_⟩
  intro f T hf hT
  obtain ⟨h1, h2, h3, _⟩ := hf
  have hdot := Mat3.mulVec_dot_of_orthogonal T.R hT
  have hbx : (T.compose (matrixFromFrame f)).basisX = T.R.mulVec f.xaxis := by
    rw [Xform.basisX, Xform.compose, Mat3.col0_mul, matrixFromFrame, Mat3.ofCols_col0]
  have hby : (T.compose (matrixFromFrame f)).basisY = T.R.mulVec f.yaxis := by
    rw [Xform.basisY, Xform.compose, Mat3.col1_mul, matrixFromFrame, Mat3.ofCols_col1]
  have hc0 : dot (T.R.mulVec f.xaxis) (T.R.mulVec f.xaxis) = 1 := by
    rw [hdot]; exact h1
  have hc1 : dot (T.R.mulVec f.yaxis) (T.R.mulVec f.yaxis) = 1 := by
    rw [hdot]; exact h2
  have hc01 : dot (T.R.mulVec f.xaxis) (T.R.mulVec f.yaxis) = 0 := by
    rw [hdot]; exact h3
  have hne : T.R.mulVec f.xaxis ≠ 0 :=
    ne_zero_of_dot_self_ne_zero _ (by rw [hc0]; norm_num)
  have hcrossne : cross (unitize (T.R.mulVec f.xaxis))
      (unitize (T.R.mulVec f.yaxis)) ≠ 0 := by
    rw [unitize_of_unit _ hc0, unitize_of_unit _ hc1]
    apply ne_zero_of_dot_self_ne_zero
    rw [lagrange_identity, hc0, hc1, hc01]
    norm_num
  show FrameInv (mkFrame (T.compose (matrixFromFrame f)).t
    (T.compose (matrixFromFrame f)).basisX (T.compose (matrixFromFrame f)).basisY)
  rw [hbx, hby]
  exact mkFrame_inv _ _ _ hne hcrossne

/-- Witness for the amended C1: all four parts at concrete data, with the
identity rotation as rigid transformation. -/
theorem frame_orthonormal_invariant_witness :
    FrameInv (mkFrame ⟨0, 0, 0⟩ ⟨1, 0, 0⟩ ⟨0, 1, 0⟩) ∧
    FrameInv (setYaxis ⟨⟨0, 0, 0⟩, ⟨1, 0, 0⟩, ⟨0, 1, 0⟩⟩ ⟨0, 1, 0⟩) ∧
    dot (setXaxis ⟨⟨0, 0, 0⟩, ⟨1, 0, 0⟩, ⟨0, 1, 0⟩⟩ ⟨1, 0, 0⟩).xaxis
      (setXaxis ⟨⟨0, 0, 0⟩, ⟨1, 0, 0⟩, ⟨0, 1, 0⟩⟩ ⟨1, 0, 0⟩).xaxis = 1 ∧
    FrameInv (frameTransform ⟨⟨0, 0, 0⟩, ⟨1, 0, 0⟩, ⟨0, 1, 0⟩⟩ ⟨1, ⟨3, 4, 5⟩⟩) := by
  have hu1 : unitize (⟨1, 0, 0⟩ : Vec3) = ⟨1, 0, 0⟩ :=
    unitize_of_unit _ (by norm_num [dot])
  have hu2 : unitize (⟨0, 1, 0⟩ : Vec3) = ⟨0, 1, 0⟩ :=
    unitize_of_unit _ (by norm_num [dot])
  have hx : (⟨1, 0, 0⟩ : Vec3) ≠ 0 := by
    intro h; have := congrArg Vec3.x h; norm_num at this
  have hv : (⟨0, 1, 0⟩ : Vec3) ≠ 0 := by
    intro h; have := congrArg Vec3.y h; norm_num at this
  have hc : cross (unitize (⟨1, 0, 0⟩ : Vec3)) (unitize (⟨0, 1, 0⟩ : Vec3)) ≠ 0 := by
    rw [hu1, hu2]
    intro h; have := congrArg Vec3.z h; norm_num [cross] at this
  have hc2 : cross (Frame.mk ⟨0, 0, 0⟩ ⟨1, 0, 0⟩ ⟨0, 1, 0⟩).xaxis
      (unitize ⟨0, 1, 0⟩) ≠ 0 := by
    rw [hu2]
    intro h; have := congrArg Vec3.z h; norm_num [cross] at this
  have hfinv : FrameInv ⟨⟨0, 0, 0⟩, ⟨1, 0, 0⟩, ⟨0, 1, 0⟩⟩ := by
    refine ⟨?_, ?_, ?_, ?_⟩ <;> norm_num [dot, cross, tripleProd, zaxis]
  have hrigid : Rigid ⟨1, ⟨3, 4, 5⟩⟩ := by
    show (1 : Mat3).transpose.mul 1 = 1
    ext <;> simp [Mat3.transpose, Mat3.mul]
  exact ⟨frame_orthonormal_invariant.1 ⟨0, 0, 0⟩ ⟨1, 0, 0⟩ ⟨0, 1, 0⟩ hx hc,
    frame_orthonormal_invariant.2.1 _ ⟨0, 1, 0⟩ (by norm_num [dot]) hc2,
    frame_orthonormal_invariant.2.2.1 _ ⟨1, 0, 0⟩ hx,
    frame_orthonormal_invariant.2.2.2 _ ⟨1, ⟨3, 4, 5⟩⟩ hfinv hrigid⟩

/-- Claim C2: for every point p and every frame satisfying the orthonormal
invariant, re-expressing p in the frame's local coordinates and back to
global coordinates returns p (exactly, in real arithmetic). -/
theorem represent_point_roundtrip (f : Frame) (p : Vec3) (hf : FrameInv f) :
    representPointInGlobal f (representPointInLocal f p) = p := by
  obtain ⟨h1, h2, h3, _⟩ := hf
  have hux : unitize f.xaxis = f.xaxis := unitize_of_unit _ h1
  have huy : unitize f.yaxis = f.yaxis := unitize_of_unit _ h2
  have hyy : cross (cross f.xaxis f.yaxis) f.xaxis = f.yaxis := by
    rw [cross_cross_left, h1, dot_comm f.yaxis f.xaxis, h3]
    simp
  have hBasis : matrixFromBasis f.xaxis f.yaxis =
      ⟨Mat3.ofCols f.xaxis f.yaxis (cross f.xaxis f.yaxis), 0⟩ := by
    rw [matrixFromBasis, hux, huy, hyy]
  have hdet : (Mat3.ofCols f.xaxis f.yaxis (cross f.xaxis f.yaxis)).det ≠ 0 := by
    rw [Mat3.det_ofCols, lagrange_identity, h1, h2, h3]
    norm_num
  show (matrixFromFrame f).apply
    ((matrixFromBasis f.xaxis f.yaxis).inverse.apply (p - f.point)) = p
  rw [hBasis]
  simp only [Xform.inverse, Xform.apply, matrixFromFrame, zaxis,
    Mat3.mulVec_zero, neg_zero, add_zero]
  rw [Mat3.mulVec_inv_cancel _ hdet]
  abel

/-- Witness for C2 at a concrete frame and point. -/
theorem represent_point_roundtrip_witness :
    FrameInv ⟨⟨1, 2, 3⟩, ⟨1, 0, 0⟩, ⟨0, 1, 0⟩⟩ ∧
    representPointInGlobal ⟨⟨1, 2, 3⟩, ⟨1, 0, 0⟩, ⟨0, 1, 0⟩⟩
      (representPointInLocal ⟨⟨1, 2, 3⟩, ⟨1, 0, 0⟩, ⟨0, 1, 0⟩⟩ ⟨4, 5, 6⟩) =
      ⟨4, 5, 6⟩ := by
  have hInv : FrameInv ⟨⟨1, 2, 3⟩, ⟨1, 0, 0⟩, ⟨0, 1, 0⟩⟩ := by
    refine ⟨?_, ?_, ?_, ?_⟩ <;> norm_num [dot, cross, tripleProd, zaxis]
  exact ⟨hInv, represent_point_roundtrip _ ⟨4, 5, 6⟩ hInv⟩

/-- Counterexample to claim C8 as stated: a list of sixteen zeros has one of
the two accepted lengths, yet from_list does not construct a frame: the
extracted x-axis is the zero vector and the constructor pipeline fails on
the degenerate input instead of returning. -/
theorem from_list_cex :
    frameFromList [0, 0, 0, 0, 0, 0, 0, 0, 0, 0, 0, 0, 0, 0, 0, (0 : ℝ)] =
      Except.error Err.degenerateInput := by
  norm_num [frameFromList, frameFromMatrix, mkFrameChecked, matrixOfList, Vec3.ext_iff]

/-- Claim C8 amended: a list whose length is neither 12 nor 16 yields the
wrong-length error (the spec's InvalidRepresentationError kind, a ValueError
in the code); a 12-entry list behaves like its 16-entry homogeneous
extension; and a 16-entry list constructs a frame provided the extracted
basis columns are non-degenerate (nonzero and non-parallel) - not for every
such list, as the all-zero counterexample shows. -/
theorem from_list_behavior :
    (∀ vs : List ℝ, vs.length ≠ 12 → vs.length ≠ 16 →
      frameFromList vs = Except.error Err.invalidRepresentation) ∧
    (∀ vs : List ℝ, vs.length = 12 →
      frameFromList vs = frameFromList (vs ++ [0, 0, 0, 1])) ∧
    (∀ vs : List ℝ, vs.length = 16 →
      (⟨matrixOfList vs 0 0, matrixOfList vs 1 0, matrixOfList vs 2 0⟩ : Vec3) ≠ 0 →
      (⟨matrixOfList vs 0 1, matrixOfList vs 1 1, matrixOfList vs 2 1⟩ : Vec3) ≠ 0 →
      cross (unitize ⟨matrixOfList vs 0 0, matrixOfList vs 1 0, matrixOfList vs 2 0⟩)
        (unitize ⟨matrixOfList vs 0 1, matrixOfList vs 1 1, matrixOfList vs 2 1⟩) ≠ 0 →
      frameFromList vs = Except.ok (mkFrame
        ⟨matrixOfList vs 0 3, matrixOfList vs 1 3, matrixOfList vs 2 3⟩
        ⟨matrixOfList vs 0 0, matrixOfList vs 1 0, matrixOfList vs 2 0⟩
        ⟨matrixOfList vs 0 1, matrixOfList vs 1 1, matrixOfList vs 2 1⟩)) := by
  refine ⟨?_, ?_, ?_⟩
  · intro vs h12 h16
    simp [frameFromList, h12, h16]
  · intro vs h12
    have h16 : (vs ++ [0, 0, 0, 1]).length = 16 := by
      simp [List.length_append, h12]
    simp [frameFromList, h12, h16]
  · intro vs h16 hx hy hc
    have h12 : vs.length ≠ 12 := by rw [h16]; norm_num
    have hvs2 : (if vs.length = 12 then vs ++ [0, 0, 0, 1] else vs) = vs := if_neg h12
    show (if (if vs.length = 12 then vs ++ [0, 0, 0, 1] else vs).length = 16 then
        frameFromMatrix (matrixOfList (if vs.length = 12 then vs ++ [0, 0, 0, 1] else vs))
      else Except.error Err.invalidRepresentation) = _
    rw [hvs2, if_pos h16]
    simp only [frameFromMatrix, mkFrameChecked]
    rw [if_neg hx, if_neg hy, if_neg hc]

/-- Witness for the amended C8: the wrong-length branch at a 3-entry list
and the success branch at the identity matrix list. -/
theorem from_list_behavior_witness :
    frameFromList [0, 0, (0 : ℝ)] = Except.error Err.invalidRepresentation ∧
    frameFromList [1, 0, 0, 0, 0, 1, 0, 0, 0, 0, 1, 0, 0, 0, 0, (1 : ℝ)] =
      Except.ok (mkFrame ⟨0, 0, 0⟩ ⟨1, 0, 0⟩ ⟨0, 1, 0⟩) := by
  constructor
  · exact from_list_behavior.1 [0, 0, 0] (by norm_num) (by norm_num)
  · have hval : ∀ i j : ℕ,
        matrixOfList [1, 0, 0, 0, 0, 1, 0, 0, 0, 0, 1, 0, 0, 0, 0, (1 : ℝ)] i j =
        [1, 0, 0, 0, 0, 1, 0, 0, 0, 0, 1, 0, 0, 0, 0, (1 : ℝ)].getD (i * 4 + j) 0 :=
      fun i j => rfl
    have hu1 : unitize (⟨1, 0, 0⟩ : Vec3) = ⟨1, 0, 0⟩ :=
      unitize_of_unit _ (by norm_num [dot])
    have hu2 : unitize (⟨0, 1, 0⟩ : Vec3) = ⟨0, 1, 0⟩ :=
      unitize_of_unit _ (by norm_num [dot])
    have h := from_list_behavior.2.2 [1, 0, 0, 0, 0, 1, 0, 0, 0, 0, 1, 0, 0, 0, 0, (1 : ℝ)]
      (by norm_num)
      (by intro h0; have := congrArg Vec3.x h0; norm_num [matrixOfList] at this)
      (by intro h0; have := congrArg Vec3.y h0; norm_num [matrixOfList] at this)
      (by
        have e1 : (⟨matrixOfList [1, 0, 0, 0, 0, 1, 0, 0, 0, 0, 1, 0, 0, 0, 0, (1 : ℝ)] 0 0,
            matrixOfList [1, 0, 0, 0, 0, 1, 0, 0, 0, 0, 1, 0, 0, 0, 0, (1 : ℝ)] 1 0,
            matrixOfList [1, 0, 0, 0, 0, 1, 0, 0, 0, 0, 1, 0, 0, 0, 0, (1 : ℝ)] 2 0⟩ : Vec3) =
            ⟨1, 0, 0⟩ := by ext <;> norm_num [matrixOfList]
        have e2 : (⟨matrixOfList [1, 0, 0, 0, 0, 1, 0, 0, 0, 0, 1, 0, 0, 0, 0, (1 : ℝ)] 0 1,
            matrixOfList [1, 0, 0, 0, 0, 1, 0, 0, 0, 0, 1, 0, 0, 0, 0, (1 : ℝ)] 1 1,
            matrixOfList [1, 0, 0, 0, 0, 1, 0, 0, 0, 0, 1, 0, 0, 0, 0, (1 : ℝ)] 2 1⟩ : Vec3) =
            ⟨0, 1, 0⟩ := by ext <;> norm_num [matrixOfList]
        rw [e1, e2, hu1, hu2]
        intro h0; have := congrArg Vec3.z h0; norm_num [cross] at this)
    have e1 : (⟨matrixOfList [1, 0, 0, 0, 0, 1, 0, 0, 0, 0, 1, 0, 0, 0, 0, (1 : ℝ)] 0 3,
        matrixOfList [1, 0, 0, 0, 0, 1, 0, 0, 0, 0, 1, 0, 0, 0, 0, (1 : ℝ)] 1 3,
        matrixOfList [1, 0, 0, 0, 0, 1, 0, 0, 0, 0, 1, 0, 0, 0, 0, (1 : ℝ)] 2 3⟩ : Vec3) =
        ⟨0, 0, 0⟩ := by ext <;> norm_num [matrixOfList]
    have e2 : (⟨matrixOfList [1, 0, 0, 0, 0, 1, 0, 0, 0, 0, 1, 0, 0, 0, 0, (1 : ℝ)] 0 0,
        matrixOfList [1, 0, 0, 0, 0, 1, 0, 0, 0, 0, 1, 0, 0, 0, 0, (1 : ℝ)] 1 0,
        matrixOfList [1, 0, 0, 0, 0, 1, 0, 0, 0, 0, 1, 0, 0, 0, 0, (1 : ℝ)] 2 0⟩ : Vec3) =
        ⟨1, 0, 0⟩ := by ext <;> norm_num [matrixOfList]
    have e3 : (⟨matrixOfList [1, 0, 0, 0, 0, 1, 0, 0, 0, 0, 1, 0, 0, 0, 0, (1 : ℝ)] 0 1,
        matrixOfList [1, 0, 0, 0, 0, 1, 0, 0, 0, 0, 1, 0, 0, 0, 0, (1 : ℝ)] 1 1,
        matrixOfList [1, 0, 0, 0, 0, 1, 0, 0, 0, 0, 1, 0, 0, 0, 0, (1 : ℝ)] 2 1⟩ : Vec3) =
        ⟨0, 1, 0⟩ := by ext <;> norm_num [matrixOfList]
    rw [e1, e2, e3] at h
    exact h

/-- Claim C4: for points lying exactly on a sphere and not all coplanar, any
solution of the normal equations of the assembled linear system is the exact
algebraic solution, so bestfit_sphere_numpy returns that sphere's center
(the first three coefficients) and radius sqrt(d + a^2 + b^2 + c^2). -/
theorem bestfit_sphere_exact (pts : List Vec3) (u : Vec4) (c0 : Vec3) (r : ℝ)
    (hr : 0 ≤ r)
    (hsph : ∀ p ∈ pts, dot (p - c0) (p - c0) = r ^ 2)
    (hncp : Noncoplanar pts)
    (hlsq : NormalEq pts u) :
    bestfitSphere pts u = Except.ok (c0, r) := by
  obtain ⟨hA, hB, hC, hD⟩ := hlsq
  set ea := u.a - c0.x with hea_def
  set eb := u.b - c0.y with heb_def
  set ec := u.c - c0.z with hec_def
  set ed := u.d - (r ^ 2 - (c0.x ^ 2 + c0.y ^ 2 + c0.z ^ 2)) with hed_def
  have hstar : ∀ p ∈ pts, sphereRes u p =
      2 * p.x * ea + 2 * p.y * eb + 2 * p.z * ec + ed := by
    intro p hp
    have h := hsph p hp
    simp only [dot, Vec3.sub_x, Vec3.sub_y, Vec3.sub_z] at h
    simp only [sphereRes, hea_def, heb_def, hec_def, hed_def]
    linear_combination -h
  have hkey : (pts.map fun p => sphereRes u p * sphereRes u p).sum = 0 := by
    have hpt : (pts.map fun p => sphereRes u p * sphereRes u p) =
        pts.map fun p => ea * (2 * p.x * sphereRes u p) +
          (eb * (2 * p.y * sphereRes u p) +
            (ec * (2 * p.z * sphereRes u p) + ed * sphereRes u p)) := by
      apply List.map_congr_left
      intro p hp
      have h := hstar p hp
      nth_rewrite 1 [h]
      ring
    rw [hpt, sum_map_add_real, sum_map_add_real, sum_map_add_real,
      sum_map_mul_left_real, sum_map_mul_left_real, sum_map_mul_left_real,
      sum_map_mul_left_real, hA, hB, hC, hD]
    ring
  have hres0 : ∀ p ∈ pts, sphereRes u p = 0 := by
    intro p hp
    have hmem : sphereRes u p * sphereRes u p ∈
        pts.map fun p => sphereRes u p * sphereRes u p :=
      List.mem_map_of_mem _ hp
    have hnn : ∀ x ∈ pts.map fun p => sphereRes u p * sphereRes u p, 0 ≤ x := by
      intro x hx
      obtain ⟨q, _, rfl⟩ := List.mem_map.mp hx
      exact mul_self_nonneg _
    exact mul_self_eq_zero.mp (eq_zero_of_sum_eq_zero _ hnn hkey _ hmem)
  have hlin : ∀ p ∈ pts, (2 * ea) * p.x + (2 * eb) * p.y + (2 * ec) * p.z + ed = 0 := by
    intro p hp
    have h1 := hres0 p hp
    have h2 := hstar p hp
    rw [h1] at h2
    linarith
  obtain ⟨ha, hb, hc, hd⟩ := hncp (2 * ea) (2 * eb) (2 * ec) ed hlin
  have hua : u.a = c0.x := by
    have : ea = 0 := by linarith
    rw [hea_def] at this; linarith
  have hub : u.b = c0.y := by
    have : eb = 0 := by linarith
    rw [heb_def] at this; linarith
  have huc : u.c = c0.z := by
    have : ec = 0 := by linarith
    rw [hec_def] at this; linarith
  have hud : u.d = r ^ 2 - (c0.x ^ 2 + c0.y ^ 2 + c0.z ^ 2) := by
    rw [hed_def] at hd; linarith
  have hcenter : (⟨u.a, u.b, u.c⟩ : Vec3) = c0 := by
    ext <;> simp [hua, hub, huc]
  have hrad : u.a * u.a + u.b * u.b + u.c * u.c + u.d = r ^ 2 := by
    rw [hua, hub, huc, hud]; ring
  rw [bestfitSphere, hcenter, hrad, Real.sqrt_sq hr]

/-- Witness for C4 at the six octahedron vertices of the unit sphere and the
exact solution vector (0, 0, 0, 1). -/
theorem bestfit_sphere_exact_witness :
    bestfitSphere [(⟨1, 0, 0⟩ : Vec3), ⟨-1, 0, 0⟩, ⟨0, 1, 0⟩, ⟨0, -1, 0⟩,
      ⟨0, 0, 1⟩, ⟨0, 0, -1⟩] ⟨0, 0, 0, 1⟩ = Except.ok (⟨0, 0, 0⟩, 1) := by
  apply bestfit_sphere_exact _ _ ⟨0, 0, 0⟩ 1 (by norm_num)
  · intro p hp
    simp only [List.mem_cons, List.not_mem_nil, or_false] at hp
    rcases hp with rfl | rfl | rfl | rfl | rfl | rfl <;> norm_num [dot]
  · intro a b c d h
    have h1 := h ⟨1, 0, 0⟩ (by simp)
    have h2 := h ⟨-1, 0, 0⟩ (by simp)
    have h3 := h ⟨0, 1, 0⟩ (by simp)
    have h4 := h ⟨0, -1, 0⟩ (by simp)
    have h5 := h ⟨0, 0, 1⟩ (by simp)
    have h6 := h ⟨0, 0, -1⟩ (by simp)
    norm_num at h1 h2 h3 h4 h5 h6
    refine ⟨by linarith, by linarith, by linarith, by linarith⟩
  · refine ⟨?_, ?_, ?_, ?_⟩ <;> norm_num [sphereRes]

set_option maxHeartbeats 1600000 in
/-- Claim C3: for at least three points lying exactly on a plane and not all
collinear, bestfit_plane_numpy returns the centroid as the plane point (the
centroid lies on the plane) and the last row of the svd factor as the
normal, which equals the plane's unit normal up to sign.  The svd of the
symmetric positive-semidefinite covariance matrix enters through its
contract: vT has orthonormal rows, the rows are eigenvectors of the
covariance action, and the corresponding singular values are returned in
decreasing order and are nonnegative. -/
theorem bestfit_plane_exact_normal (pts : List Vec3) (vT : Mat3)
    (s0 s1 s2 : ℝ) (p0 nu : Vec3)
    (hn : 3 ≤ pts.length)
    (hnu : dot nu nu = 1)
    (hplane : ∀ p ∈ pts, dot (p - p0) nu = 0)
    (hncol : ∃ p ∈ pts, ∃ q ∈ pts, ∃ r ∈ pts, cross (q - p) (r - p) ≠ 0)
    (hsvd : vT.mul vT.transpose = 1)
    (h0 : covMulVec pts vT.row0 = s0 • vT.row0)
    (h1 : covMulVec pts vT.row1 = s1 • vT.row1)
    (h2 : covMulVec pts vT.row2 = s2 • vT.row2)
    (hs01 : s1 ≤ s0) (hs12 : s2 ≤ s1) (hs2 : 0 ≤ s2) :
    bestfitPlane pts vT = Except.ok (centroid pts, vT.row2) ∧
    dot (centroid pts - p0) nu = 0 ∧
    (vT.row2 = nu ∨ vT.row2 = -nu) := by
  have hlen : (3 : ℝ) ≤ (pts.length : ℝ) := by exact_mod_cast hn
  have hm : (0 : ℝ) < ((pts.length : ℝ) - 1)⁻¹ := inv_pos.mpr (by linarith)
  have hnn : (pts.length : ℝ) ≠ 0 := by linarith
  have hconst : ∀ p ∈ pts, dot p nu = dot p0 nu := by
    intro p hp
    have h := hplane p hp
    rw [dot_sub_left] at h
    linarith
  have hcent : dot (centroid pts) nu = dot p0 nu := by
    rw [centroid, dot_smul_left, dot_vsum]
    have hmc : (pts.map fun u => dot u nu) = pts.map fun _ => dot p0 nu :=
      List.map_congr_left fun p hp => hconst p hp
    rw [hmc, sum_map_const_real]
    field_simp
  have hcen0 : dot (centroid pts - p0) nu = 0 := by
    rw [dot_sub_left, hcent]; ring
  have hyc : ∀ p ∈ pts, dot (p - centroid pts) nu = 0 := by
    intro p hp
    rw [dot_sub_left, hconst p hp, hcent]; ring
  have hCnu : covMulVec pts nu = 0 := by
    rw [covMulVec]
    have hmz : (pts.map fun p => dot (p - centroid pts) nu • (p - centroid pts)) =
        pts.map fun _ => (0 : Vec3) := by
      apply List.map_congr_left
      intro p hp
      rw [hyc p hp, zero_smul]
    rw [hmz, vsum_map_zero, smul_zero]
  have hT : vT.transpose.mul vT = 1 := Mat3.mul_eq_one_comm3 _ _ hsvd
  obtain ⟨hr00, hr11, hr22, hr01, hr02, hr12⟩ := Mat3.rows_orthonormal vT hsvd
  have hexp := Mat3.rows_complete vT hT nu
  have hCnu2 : covMulVec pts nu = (dot nu vT.row0 * s0) • vT.row0 +
      (dot nu vT.row1 * s1) • vT.row1 + (dot nu vT.row2 * s2) • vT.row2 := by
    conv_lhs => rw [hexp]
    rw [covMulVec_add, covMulVec_add, covMulVec_smul, covMulVec_smul,  covMulVec_smul,
      h0, h1, h2, smul_smul, smul_smul, smul_smul]
  have hc00 : dot nu vT.row0 * s0 = 0 := by
    have e0 : dot vT.row0 (covMulVec pts nu) = 0 := by
      rw [hCnu]; exact dot_zero_right _
    rw [hCnu2] at e0
    simp only [dot_add_right, dot_smul_right] at e0
    rw [hr00, hr01, hr02] at e0
    linarith
  have hc11 : dot nu vT.row1 * s1 = 0 := by
    have e1 : dot vT.row1 (covMulVec pts nu) = 0 := by
      rw [hCnu]; exact dot_zero_right _
    rw [hCnu2] at e1
    simp only [dot_add_right, dot_smul_right] at e1
    rw [dot_comm vT.row1 vT.row0, hr01, hr11, hr12] at e1
    linarith
  have hc22 : dot nu vT.row2 * s2 = 0 := by
    have e2 : dot vT.row2 (covMulVec pts nu) = 0 := by
      rw [hCnu]; exact dot_zero_right _
    rw [hCnu2] at e2
    simp only [dot_add_right, dot_smul_right] at e2
    rw [dot_comm vT.row2 vT.row0, dot_comm vT.row2 vT.row1, hr02, hr12, hr22] at e2
    linarith
  have hsumsq : (dot nu vT.row0) ^ 2 + (dot nu vT.row1) ^ 2 +
      (dot nu vT.row2) ^ 2 = 1 := by
    have e : dot nu nu = (dot nu vT.row0) ^ 2 + (dot nu vT.row1) ^ 2 +
        (dot nu vT.row2) ^ 2 := by
      conv_lhs => rw [hexp]
      simp only [dot_add_left, dot_add_right, dot_smul_left, dot_smul_right]
      rw [dot_comm vT.row1 vT.row0, dot_comm vT.row2 vT.row0, dot_comm vT.row2 vT.row1,
        hr00, hr11, hr22, hr01, hr02, hr12]
      ring
    rw [← e, hnu]
  have hs2z : s2 = 0 := by
    by_contra hne
    have hpos : 0 < s2 := lt_of_le_of_ne hs2 (Ne.symm hne)
    have h0ne : s0 ≠ 0 := ne_of_gt (by linarith)
    have h1ne : s1 ≠ 0 := ne_of_gt (by linarith)
    have hc0z : dot nu vT.row0 = 0 := (mul_eq_zero.mp hc00).resolve_right h0ne
    have hc1z : dot nu vT.row1 = 0 := (mul_eq_zero.mp hc11).resolve_right h1ne
    have hc2z : dot nu vT.row2 = 0 := (mul_eq_zero.mp hc22).resolve_right hne
    rw [hc0z, hc1z, hc2z] at hsumsq
    norm_num at hsumsq
  have hCr2 : covMulVec pts vT.row2 = 0 := by
    rw [h2, hs2z, zero_smul]
  have hsq : (pts.map fun p =>
      dot (p - centroid pts) vT.row2 * dot (p - centroid pts) vT.row2).sum = 0 := by
    have e := dot_covMulVec pts vT.row2 vT.row2
    rw [hCr2, dot_zero_right] at e
    exact ((mul_eq_zero.mp e.symm).resolve_left (ne_of_gt hm))
  have hyperp : ∀ p ∈ pts, dot (p - centroid pts) vT.row2 = 0 := by
    intro p hp
    have hmem : dot (p - centroid pts) vT.row2 * dot (p - centroid pts) vT.row2 ∈
        pts.map fun p => dot (p - centroid pts) vT.row2 * dot (p - centroid pts) vT.row2 :=
      List.mem_map_of_mem _ hp
    have hnn2 : ∀ x ∈ pts.map fun p =>
        dot (p - centroid pts) vT.row2 * dot (p - centroid pts) vT.row2, 0 ≤ x := by
      intro x hx
      obtain ⟨q, _, rfl⟩ := List.mem_map.mp hx
      exact mul_self_nonneg _
    exact mul_self_eq_zero.mp (eq_zero_of_sum_eq_zero _ hnn2 hsq _ hmem)
  obtain ⟨pa, hpa, pb, hpb, pc, hpc, hzne⟩ := hncol
  have hwq : dot (pb - pa) vT.row2 = 0 := by
    have e1 := hyperp pb hpb
    have e2 := hyperp pa hpa
    have h : pb - pa = (pb - centroid pts) - (pa - centroid pts) := by abel
    rw [h, dot_sub_left, e1, e2]; ring
  have hwr : dot (pc - pa) vT.row2 = 0 := by
    have e1 := hyperp pc hpc
    have e2 := hyperp pa hpa
    have h : pc - pa = (pc - centroid pts) - (pa - centroid pts) := by abel
    rw [h, dot_sub_left, e1, e2]; ring
  have hnuq : dot (pb - pa) nu = 0 := by
    have e1 := hplane pb hpb
    have e2 := hplane pa hpa
    have h : pb - pa = (pb - p0) - (pa - p0) := by abel
    rw [h, dot_sub_left, e1, e2]; ring
  have hnur : dot (pc - pa) nu = 0 := by
    have e1 := hplane pc hpc
    have e2 := hplane pa hpa
    have h : pc - pa = (pc - p0) - (pa - p0) := by abel
    rw [h, dot_sub_left, e1, e2]; ring
  have hwz : cross vT.row2 (cross (pb - pa) (pc - pa)) = 0 := by
    rw [cross_cross_right, dot_comm vT.row2 (pc - pa), hwr,
      dot_comm vT.row2 (pb - pa), hwq]
    simp
  have hnz : cross nu (cross (pb - pa) (pc - pa)) = 0 := by
    rw [cross_cross_right, dot_comm nu (pc - pa), hnur, dot_comm nu (pb - pa), hnuq]
    simp
  have hzz : dot (cross (pb - pa) (pc - pa)) (cross (pb - pa) (pc - pa)) ≠ 0 :=
    fun h => hzne ((dot_self_eq_zero_iff _).mp h)
  have hwp := eq_smul_of_cross_eq_zero vT.row2 (cross (pb - pa) (pc - pa)) hzne hwz
  have hnp := eq_smul_of_cross_eq_zero nu (cross (pb - pa) (pc - pa)) hzne hnz
  set zv := cross (pb - pa) (pc - pa) with hzv
  set aw := dot vT.row2 zv / dot zv zv with haw
  set an := dot nu zv / dot zv zv with han
  have hw1 : aw * aw * dot zv zv = 1 := by
    have h := hr22
    rw [hwp] at h
    simp only [dot_smul_left, dot_smul_right] at h
    linear_combination h
  have hn1 : an * an * dot zv zv = 1 := by
    have h := hnu
    rw [hnp] at h
    simp only [dot_smul_left, dot_smul_right] at h
    linear_combination h
  have hsq_eq : aw * aw = an * an := mul_right_cancel₀ hzz (hw1.trans hn1.symm)
  have hcases : aw = an ∨ aw = -an := by
    have hfac : (aw - an) * (aw + an) = 0 := by nlinarith [hsq_eq]
    rcases mul_eq_zero.mp hfac with h | h
    · left; linarith
    · right; linarith
  refine ⟨?_, hcen0, ?_⟩
  · have hne1 : pts.length ≠ 1 := by omega
    simp [bestfitPlane, hne1]
  · rcases hcases with h | h
    · left; rw [hwp, h, ← hnp]
    · right; rw [hwp, h, neg_smul, ← hnp]

/-- Witness for C3: three points of the plane z = 0 whose covariance matrix
is diagonal with entries 1, 1/3, 0, so the identity matrix is a valid svd
factor with singular values (1, 1/3, 0). -/
theorem bestfit_plane_exact_normal_witness :
    bestfitPlane [(⟨0, 0, 0⟩ : Vec3), ⟨2, 0, 0⟩, ⟨1, 1, 0⟩] 1 =
      Except.ok (centroid [(⟨0, 0, 0⟩ : Vec3), ⟨2, 0, 0⟩, ⟨1, 1, 0⟩], (1 : Mat3).row2) ∧
    dot (centroid [(⟨0, 0, 0⟩ : Vec3), ⟨2, 0, 0⟩, ⟨1, 1, 0⟩] - ⟨0, 0, 0⟩) ⟨0, 0, 1⟩ = 0 ∧
    ((1 : Mat3).row2 = ⟨0, 0, 1⟩ ∨ (1 : Mat3).row2 = -⟨0, 0, 1⟩) := by
  apply bestfit_plane_exact_normal _ _ 1 (1 / 3 : ℝ) 0 ⟨0, 0, 0⟩ ⟨0, 0, 1⟩
  · norm_num
  · norm_num [dot]
  · intro p hp
    simp only [List.mem_cons, List.not_mem_nil, or_false] at hp
    rcases hp with rfl | rfl | rfl <;> norm_num [dot]
  · refine ⟨⟨0, 0, 0⟩, by simp, ⟨2, 0, 0⟩, by simp, ⟨1, 1, 0⟩, by simp, ?_⟩
    intro h
    have := congrArg Vec3.z h
    norm_num [cross] at this
  · ext <;> simp [Mat3.mul, Mat3.transpose]
  · show covMulVec _ (⟨1, 0, 0⟩ : Vec3) = (1 : ℝ) • (⟨1, 0, 0⟩ : Vec3)
    ext <;> norm_num [covMulVec, centroid, vsum, dot]
  · show covMulVec _ (⟨0, 1, 0⟩ : Vec3) = (1 / 3 : ℝ) • (⟨0, 1, 0⟩ : Vec3)
    ext <;> norm_num [covMulVec, centroid, vsum, dot]
  · show covMulVec _ (⟨0, 0, 1⟩ : Vec3) = (0 : ℝ) • (⟨0, 0, 1⟩ : Vec3)
    ext <;> norm_num [covMulVec, centroid, vsum, dot]
  · norm_num
  · norm_num
  · norm_num

end Compas

